import Mathlib

/-
Verification of the release-notes extractor (main.go of
jespino/github-mm-release-notes).

The Go program's core logic is embedded shallowly over `List Char`:

* `extractReleaseNote` (main.go:422-465): an ordered cascade of five
  regular-expression rules over the PR body.  Each Go regexp is translated
  into an explicit leftmost-first matching function (Go's regexp package
  returns the leftmost match; within one starting position, alternatives
  are tried in order, greedy `x*` prefers longer, and non-greedy `x*?`
  prefers shorter).  Each translation is documented at its definition.
* `unifyMilestonesByName` (main.go:37-65): the title-keyed map of
  `UnifiedMilestone`s is modelled as an association list in first-insertion
  order.  Go's map iteration order (used when converting the map back to a
  slice) is unspecified, so every theorem below about the unifier is
  insensitive to the order of the returned list (membership, permutation,
  and `filter`-by-title statements only).
* the post-fetch filter of `getPRsWithReleaseNotes` (main.go:410-418).

Characters are compared exactly; the Unicode white-space classes used by
Go are modelled on their Latin-1 fragment (the PR bodies in scope are
ASCII), as documented on `reWs` and `goIsSpace`.
-/

namespace RelNotes

/-- Whitespace class of the Go regexp escape backslash-s, which RE2 defines
as the five characters TAB, LF, FF, CR and SPACE. -/
def reWs (c : Char) : Bool :=
  c == Char.ofNat 9 || c == Char.ofNat 10 || c == Char.ofNat 12 ||
  c == Char.ofNat 13 || c == ' '

/-- The predicate of Go's `unicode.IsSpace`, used by `strings.TrimSpace`:
TAB, LF, VT, FF, CR, SPACE, NEL (U+0085) and NBSP (U+00A0).  Higher
Unicode White_Space code points are outside the modelled character set. -/
def goIsSpace (c : Char) : Bool :=
  c == Char.ofNat 9 || c == Char.ofNat 10 || c == Char.ofNat 11 ||
  c == Char.ofNat 12 || c == Char.ofNat 13 || c == ' ' ||
  c == Char.ofNat 133 || c == Char.ofNat 160

/-- Test whether `pat` is a prefix of `l`: `isPre pat l` holds when `pat` is a prefix of `l` (exact characters). -/
def isPre : List Char → List Char → Bool
  | [], _ => true
  | _ :: _, [] => false
  | a :: as, b :: bs => a == b && isPre as bs

/-- ASCII lower-casing, the fragment of Unicode simple folding used by the
case-insensitive flag `(?i)` of rule 5 on the bodies in scope. -/
def lowerChar (c : Char) : Char :=
  if 65 ≤ c.toNat && c.toNat ≤ 90 then Char.ofNat (c.toNat + 32) else c

/-- Case-insensitive prefix test (for the `(?i)` literals of rule 5). -/
def ciPre : List Char → List Char → Bool
  | [], _ => true
  | _ :: _, [] => false
  | a :: as, b :: bs => lowerChar a == lowerChar b && ciPre as bs

/-- Index of the leftmost occurrence of `pat` in `l`, if any. -/
def indexOfSub (pat : List Char) : List Char → Option Nat
  | [] => if isPre pat [] then some 0 else none
  | b :: rest =>
    if isPre pat (b :: rest) then some 0
    else Option.map (fun n => n + 1) (indexOfSub pat rest)

/-- Index of the leftmost occurrence of `pat` in `body` at or after
position `start`, if any. -/
def indexOfSubFrom (pat body : List Char) (start : Nat) : Option Nat :=
  Option.map (fun n => n + start) (indexOfSub pat (List.drop start body))

/-- Substring test, the model of Go's `strings.Contains`. -/
def hasSub (body pat : List Char) : Bool :=
  (indexOfSub pat body).isSome

/-- The half-open slice of `l` from position `a` to position `b`. -/
def slice (l : List Char) (a b : Nat) : List Char :=
  List.take (b - a) (List.drop a l)

/-- Length of the maximal run of regexp whitespace at the head of `l`. -/
def wsRun (l : List Char) : Nat :=
  (List.takeWhile reWs l).length

/-- Offsets of the LF characters inside `run`, in descending order.  A
greedy run of backslash-s that must be followed by a literal LF stops at
one of these offsets, trying the largest first. -/
def descNlOffsets (run : List Char) : List Nat :=
  (List.filter (fun k => List.get? run k == some (Char.ofNat 10))
    (List.range run.length)).reverse

/-- Smallest `e` with `i ≤ e < i + fuel` and `f e = true`, if any. -/
def findFrom (f : Nat → Bool) : Nat → Nat → Option Nat
  | 0, _ => none
  | n + 1, i => if f i then some i else findFrom f n (i + 1)

/-- Largest `e < n` with `f e = true`, if any (scans downward). -/
def findLast (f : Nat → Bool) : Nat → Option Nat
  | 0 => none
  | n + 1 => if f n then some n else findLast f n

/-- Leftmost scan: the result of `f` at the smallest position
`i ≤ pos < i + fuel` where `f` succeeds.  This is the position loop of a
Go regexp search (`FindStringSubmatch` returns the leftmost match). -/
def scanPos (f : Nat → Option (List Char)) : Nat → Nat → Option (List Char)
  | 0, _ => none
  | n + 1, i =>
    match f i with
    | some r => some r
    | none => scanPos f n (i + 1)

/-- The opening literal of rule 1: three backticks, the tag, and a LF. -/
def fence1open : List Char := String.toList "```release-note\n"

/-- The closing literal of rules 1 and 2: a LF and three backticks. -/
def fenceClose : List Char := String.toList "\n```"

/-- A bare triple-backtick fence. -/
def fenceLit : List Char := String.toList "```"

/-- The tag literal of rule 2. -/
def tagLit : List Char := String.toList "release-note"

/-- The heading-marker literal of rule 3. -/
def hhhLit : List Char := String.toList "###"

/-- The heading-text literal of rule 3. -/
def hdrLit : List Char := String.toList "Release Note"

/-- The section terminator of rule 3: a LF followed by a heading marker. -/
def nlhhhLit : List Char := String.toList "\n###"

/-- The inline-prefix literal of rule 4. -/
def relNoteColonLit : List Char := String.toList "release-note:"

/-- First alternative literal of rule 5 (before the optional s). -/
def relNoteWords : List Char := String.toList "release note"

/-- Second alternative literal of rule 5 (before the optional s). -/
def relChangeWords : List Char := String.toList "release change"

/-- Sentinel returned by `extractReleaseNote` for an empty body
(main.go:424). -/
def noteNotFound : List Char := String.toList "No release note found"

/-- Sentinel returned by `extractReleaseNote` when no rule matched
(main.go:464). -/
def noteNotFoundFormat : List Char :=
  String.toList "No release note found in expected format"

/-- Removes the trailing characters satisfying `p`. -/
def dropWhileEnd (p : Char → Bool) : List Char → List Char
  | [] => []
  | c :: t =>
    if (dropWhileEnd p t).isEmpty && p c then [] else c :: dropWhileEnd p t

/-- Go's `strings.TrimSpace`: drop leading and trailing white space. -/
def trimSpace (l : List Char) : List Char :=
  dropWhileEnd goIsSpace (List.dropWhile goIsSpace l)

/-
Rule 1 (main.go:430): the Go regexp

    (?s)```release-note\n(.*?)\n```

is two fixed literals around a non-greedy capture.  A match can only start
at an occurrence of the opening literal, and a match starting at the first
such occurrence exists whenever any later match exists (the same closing
literal serves), so the leftmost match starts at the first occurrence of
the opening literal, provided the closing literal occurs after it.  The
non-greedy capture ends at the earliest closing literal.  The opening
literal is 16 characters long.
-/

/-- Rule 1 of `extractReleaseNote`: the captured group of the strict
fenced release-note block, if the regexp matches. -/
def format1 (body : List Char) : Option (List Char) :=
  match indexOfSub fence1open body with
  | none => none
  | some i =>
    match indexOfSubFrom fenceClose body (i + 16) with
    | none => none
    | some j => some (slice body (i + 16) j)

/-- Terminator test of rule 2's closing part `\n` `\s*` backticks: at `e`
there must be a LF, and after the greedy whitespace run following it the
closing fence.  Greedy backtracking is vacuous here: a backtick is not
white space, so the fence can only sit right after the maximal run. -/
def close2At (body : List Char) (e : Nat) : Bool :=
  (List.get? body e == some (Char.ofNat 10)) &&
    isPre fenceLit
      (List.drop (e + 1 + wsRun (List.drop (e + 1) body)) body)

/-- Shared search for rules 2 and 3: the pattern `\s*` followed by a
literal LF binds the greedy run to end at a LF of the run, trying the
latest LF first (`ks` descending); for each candidate, the non-greedy
capture runs to the earliest position where `term` holds. -/
def tryNlCands (body : List Char) (term : Nat → Bool) (s : Nat) :
    List Nat → Option (List Char)
  | [] => none
  | k :: ks =>
    match findFrom term (body.length + 1) (s + k + 1) with
    | some e => some (slice body (s + k + 1) e)
    | none => tryNlCands body term s ks

/-
Rule 2 (main.go:437): the Go regexp

    (?s)```\s*release-note\s*\n(.*?)\n\s*```

Starting at a fence occurrence, the greedy `\s*` before the tag must
consume the whole whitespace run (the tag starts with a non-space), the
greedy `\s*` before the LF stops at a LF of its run (latest first, with
backtracking over the earlier LFs of the run), and the capture is
non-greedy up to the closing part, tested by `close2At`.
-/

/-- Rule 2's match attempt at position `i`. -/
def matchAt2 (body : List Char) (i : Nat) : Option (List Char) :=
  if isPre fenceLit (List.drop i body) then
    let m := wsRun (List.drop (i + 3) body)
    if isPre tagLit (List.drop (i + 3 + m) body) then
      let s := i + 3 + m + 12
      tryNlCands body (close2At body) s
        (descNlOffsets (List.takeWhile reWs (List.drop s body)))
    else none
  else none

/-- Rule 2 of `extractReleaseNote`: the captured group of the
whitespace-tolerant fenced block, if the regexp matches. -/
def format2 (body : List Char) : Option (List Char) :=
  scanPos (matchAt2 body) (body.length + 1) 0

/-- Terminator test of rule 3's group `(\n###|\n$)`: either the literal
LF-then-heading-marker starts at `e`, or `e` is a final LF (Go's `$`
without the m flag matches only at the end of the text). -/
def term3 (body : List Char) (e : Nat) : Bool :=
  isPre nlhhhLit (List.drop e body) ||
    ((List.get? body e == some (Char.ofNat 10)) && (e + 1 == body.length))

/-
Rule 3 (main.go:444): the Go regexp

    (?s)###\s*Release Note\s*\n(.*?)(\n###|\n$)

Same shape as rule 2: the greedy `\s*` after the marker must consume its
whole run (the heading text starts with a non-space), the `\s*` before
the LF stops at a LF of its run (latest first), and the non-greedy
capture runs to the earliest terminator position.
-/

/-- Rule 3's match attempt at position `i`. -/
def matchAt3 (body : List Char) (i : Nat) : Option (List Char) :=
  if isPre hhhLit (List.drop i body) then
    let m := wsRun (List.drop (i + 3) body)
    if isPre hdrLit (List.drop (i + 3 + m) body) then
      let s := i + 3 + m + 12
      tryNlCands body (term3 body) s
        (descNlOffsets (List.takeWhile reWs (List.drop s body)))
    else none
  else none

/-- Rule 3 of `extractReleaseNote`: the captured group of the markdown
heading section, if the regexp matches. -/
def format3 (body : List Char) : Option (List Char) :=
  scanPos (matchAt3 body) (body.length + 1) 0

/-- Terminator test of the group `(\n\n|\n$)` shared by rules 4 and 5:
either two consecutive LFs start at `e`, or `e` is a final LF. -/
def term45 (body : List Char) (e : Nat) : Bool :=
  (List.get? body e == some (Char.ofNat 10)) &&
    ((List.get? body (e + 1) == some (Char.ofNat 10)) ||
      (e + 1 == body.length))

/-
Rule 4 (main.go:451): the Go regexp

    (?s)release-note:\s*(.*?)(\n\n|\n$)

After the 13-character literal at `i`, let `s = i + 13`, let `rmax` be the
whitespace run at `s` and `M` the last terminator position at or after
`s`.  The greedy `\s*` takes the largest `r ≤ rmax` for which the rest can
still match, i.e. for which some terminator lies at or after `s + r`;
that largest `r` is `min rmax (M - s)`.  The non-greedy capture then runs
to the earliest terminator at or after `s + r`.
-/

/-- Rule 4's match attempt at position `i`. -/
def matchAt4 (body : List Char) (i : Nat) : Option (List Char) :=
  if isPre relNoteColonLit (List.drop i body) then
    let s := i + 13
    let rmax := wsRun (List.drop s body)
    match findLast (fun e => decide (s ≤ e) && term45 body e) body.length with
    | none => none
    | some M =>
      match findFrom (term45 body) (body.length + 1) (s + min rmax (M - s)) with
      | none => none
      | some e => some (slice body (s + min rmax (M - s)) e)
  else none

/-- Rule 4 of `extractReleaseNote`: the captured group of the inline
release-note prefix, if the regexp matches. -/
def format4 (body : List Char) : Option (List Char) :=
  scanPos (matchAt4 body) (body.length + 1) 0

/-- The character class `[:\s]` of rule 5. -/
def colonOrWs (c : Char) : Bool :=
  c == ':' || reWs c

/-
Rule 5 (main.go:458): the Go regexp

    (?i)(?s)(?:release notes?|release changes?)[:\s]+(.*?)(\n\n|\n$)

The two alternative literals differ at their ninth character, so at most
one can match at a given position.  The greedy optional `s` must be taken
when the next character is an s or S: refusing it would put that same
character under `[:\s]+`, which rejects it, so there is no backtracking.
The class run `[:\s]+` needs at least one character; with `s` the position
after the literals and the optional s, and `M` the last terminator at or
after `s + 1`, the greedy class run takes `min rmax (M - s)` characters
exactly as in rule 4 (here at least 1), and the non-greedy capture runs
to the earliest terminator after it.
-/

/-- Rule 5's match attempt at position `i`. -/
def matchAt5 (body : List Char) (i : Nat) : Option (List Char) :=
  match
    (if ciPre relNoteWords (List.drop i body) then some (i + 12)
     else if ciPre relChangeWords (List.drop i body) then some (i + 14)
     else none) with
  | none => none
  | some a =>
    let s := if List.get? body a == some 's' || List.get? body a == some 'S'
      then a + 1 else a
    let rmax := (List.takeWhile colonOrWs (List.drop s body)).length
    if rmax == 0 then none
    else
      match findLast (fun e => decide (s + 1 ≤ e) && term45 body e)
          body.length with
      | none => none
      | some M =>
        match findFrom (term45 body) (body.length + 1)
            (s + min rmax (M - s)) with
        | none => none
        | some e => some (slice body (s + min rmax (M - s)) e)

/-- Rule 5 of `extractReleaseNote`: the captured group of the free-form
case-insensitive mention, if the regexp matches. -/
def format5 (body : List Char) : Option (List Char) :=
  scanPos (matchAt5 body) (body.length + 1) 0

/-- The release-note extractor (main.go:422-465): an empty body yields the
first sentinel; otherwise the five rules are tried in order, the captured
group of the first rule that matches is returned trimmed, and if no rule
matches the second sentinel is returned. -/
def extractReleaseNote (body : List Char) : List Char :=
  if body = [] then noteNotFound
  else
    match format1 body with
    | some c => trimSpace c
    | none =>
      match format2 body with
      | some c => trimSpace c
      | none =>
        match format3 body with
        | some c => trimSpace c
        | none =>
          match format4 body with
          | some c => trimSpace c
          | none =>
            match format5 body with
            | some c => trimSpace c
            | none => noteNotFoundFormat

/-- A GitHub milestone as decoded by the tool (main.go:29-34).  `repoURL`
is the internal origin field filled in by `main` after fetching. -/
structure Milestone where
  number : Int
  title : List Char
  description : List Char
  repoURL : List Char
  deriving DecidableEq, Repr

/-- A milestone title shared across repositories (main.go:68-72). -/
structure UnifiedMilestone where
  title : List Char
  description : List Char
  milestones : List Milestone
  deriving DecidableEq, Repr

/-- One step of the unifier's loop body (main.go:43-55): if the map holds
the milestone's title, append the milestone to that entry's list,
otherwise create a fresh entry carrying the milestone's title and
description.  The title-keyed Go map is modelled as an association list in
first-insertion order. -/
def addToUnified : List UnifiedMilestone → Milestone → List UnifiedMilestone
  | [], m => [⟨m.title, m.description, [m]⟩]
  | u :: rest, m =>
    if u.title == m.title then
      ⟨u.title, u.description, u.milestones ++ [m]⟩ :: rest
    else
      u :: addToUnified rest m

/-- The unifier `unifyMilestonesByName` (main.go:37-65): fold the loop body over every
milestone of every set, sets in the order supplied and milestones in each
set's order.  The final conversion of the Go map to a slice iterates the
map in Go's unspecified map order; the returned list is modelled in
first-insertion order, and the theorems below do not depend on the order
of this list. -/
def unifyMilestonesByName (milestoneSets : List (List Milestone)) :
    List UnifiedMilestone :=
  List.foldl (fun acc ms => List.foldl addToUnified acc ms) [] milestoneSets

/-- An issue record returned by the GitHub issues endpoint as decoded by
the tool (main.go:74-84): `milestone` is present only when GitHub
attached a milestone.  Note the decoded record has no field telling a
true pull request apart from a plain issue. -/
structure PullRequest where
  number : Int
  title : List Char
  body : List Char
  milestone : Option Int
  labels : List (List Char)
  deriving DecidableEq, Repr

/-- The post-fetch filter of `getPRsWithReleaseNotes` (main.go:410-418):
keep `pr` when the string `repoURL + "/pull/" + pr.number` contains
"pull" (the code's attempted is-a-pull-request test) and `pr` carries a
milestone reference. -/
def prFilter (repoURL : List Char) (prs : List PullRequest) :
    List PullRequest :=
  List.filter
    (fun pr =>
      hasSub (repoURL ++ String.toList "/pull/" ++
        String.toList (toString pr.number)) (String.toList "pull") &&
      pr.milestone.isSome)
    prs

/-
Supporting lemmas about trimming.
-/

/-- A non-empty result of `List.dropWhile` starts with a character
failing the predicate. -/
lemma dropWhile_shape (p : Char → Bool) :
    ∀ l : List Char, List.dropWhile p l = [] ∨
      ∃ a t, List.dropWhile p l = a :: t ∧ p a = false := by
  intro l
  induction l with
  | nil => exact Or.inl rfl
  | cons c t ih =>
    by_cases h : p c
    · simpa [List.dropWhile, h] using ih
    · exact Or.inr ⟨c, t, by simp [List.dropWhile, h], by simpa using h⟩

/-- Dropping trailing characters keeps the head of a non-empty list or empties it. -/
lemma dropWhileEnd_shape (p : Char → Bool) (c : Char) (t : List Char) :
    dropWhileEnd p (c :: t) = [] ∨
      ∃ r, dropWhileEnd p (c :: t) = c :: r := by
  by_cases h : (dropWhileEnd p t).isEmpty && p c
  · exact Or.inl (by simp [dropWhileEnd, h])
  · exact Or.inr ⟨dropWhileEnd p t, by simp [dropWhileEnd, h]⟩

/-- Dropping trailing characters twice is the same as once. -/
lemma dropWhileEnd_idem (p : Char → Bool) :
    ∀ l : List Char, dropWhileEnd p (dropWhileEnd p l) = dropWhileEnd p l := by
  intro l
  induction l with
  | nil => rfl
  | cons c t ih =>
    by_cases h : ((dropWhileEnd p t).isEmpty && p c) = true
    · simp [dropWhileEnd, h]
    · have h' : ((dropWhileEnd p t).isEmpty && p c) = false :=
        eq_false_of_ne_true h
      simp [dropWhileEnd, h', ih]

/-- Trimming is idempotent: re-trimming a trimmed string is a no-op. -/
lemma trimSpace_trimSpace (l : List Char) :
    trimSpace (trimSpace l) = trimSpace l := by
  unfold trimSpace
  have key : List.dropWhile goIsSpace
      (dropWhileEnd goIsSpace (List.dropWhile goIsSpace l)) =
      dropWhileEnd goIsSpace (List.dropWhile goIsSpace l) := by
    rcases dropWhile_shape goIsSpace l with h | ⟨a, t, h, ha⟩
    · rw [h]; rfl
    · rw [h]
      rcases dropWhileEnd_shape goIsSpace a t with h2 | ⟨r, h2⟩
      · rw [h2]; rfl
      · rw [h2, List.dropWhile_cons_of_neg (by simp [ha])]
  rw [key, dropWhileEnd_idem]

/-- Every branch of the cascade returns a sentinel or a trimmed capture. -/
lemma extract_shape (body : List Char) :
    extractReleaseNote body = noteNotFound ∨
    extractReleaseNote body = noteNotFoundFormat ∨
    ∃ c, extractReleaseNote body = trimSpace c := by
  by_cases hb : body = []
  · exact Or.inl (by simp [extractReleaseNote, hb])
  · unfold extractReleaseNote
    rw [if_neg hb]
    rcases h1 : format1 body with _ | c
    · rcases h2 : format2 body with _ | c
      · rcases h3 : format3 body with _ | c
        · rcases h4 : format4 body with _ | c
          · rcases h5 : format5 body with _ | c
            · exact Or.inr (Or.inl rfl)
            · exact Or.inr (Or.inr ⟨c, rfl⟩)
          · exact Or.inr (Or.inr ⟨c, rfl⟩)
        · exact Or.inr (Or.inr ⟨c, rfl⟩)
      · exact Or.inr (Or.inr ⟨c, rfl⟩)
    · exact Or.inr (Or.inr ⟨c, rfl⟩)

/-- C1: the five extraction rules are applied in a fixed priority order,
short-circuiting on the first match: whenever rule 1 matches with capture
`c1`, the result is rule 1's result (the trimmed capture), and in
particular a simultaneous rule 5 match does not affect the outcome. -/
theorem extract_rule1_priority (body c1 : List Char)
    (h1 : format1 body = some c1) :
    extractReleaseNote body = trimSpace c1 ∧
      ∀ c5, format5 body = some c5 →
        extractReleaseNote body = trimSpace c1 := by
  have hb : body ≠ [] := by
    intro h
    rw [h] at h1
    rw [show format1 [] = none from by decide] at h1
    exact Option.noConfusion h1
  have he : extractReleaseNote body = trimSpace c1 := by
    unfold extractReleaseNote
    rw [if_neg hb, h1]
  exact ⟨he, fun _ _ => he⟩

/-- Witness for C1: a body matched by both rule 1 and rule 5 yields
rule 1's result. -/
theorem extract_rule1_priority_witness :
    format5 (String.toList
      "```release-note\nFixed crash\n```\nSee release notes: extra\n\nend\n") =
      some (String.toList "extra") ∧
    extractReleaseNote (String.toList
      "```release-note\nFixed crash\n```\nSee release notes: extra\n\nend\n") =
      trimSpace (String.toList "Fixed crash") :=
  ⟨by decide,
    (extract_rule1_priority _ _ (by decide)).2 (String.toList "extra")
      (by decide)⟩

/-- C2: on a body that is arbitrary text, then the strict opening fence
with the release-note tag, then the fenced content, then the closing
fence, then arbitrary text, rule 1 matches and `extractReleaseNote`
returns the fenced content trimmed (and otherwise verbatim: internal
characters, newlines included, are preserved).  The two hypotheses pin
the leftmost opening fence at the end of `X` and the earliest closing
fence right after `c`, exactly the leftmost-first match of the regexp. -/
theorem extract_rule1_exact (X c Y : List Char)
    (h1 : indexOfSub fence1open (X ++ fence1open ++ c ++ fenceClose ++ Y) =
      some X.length)
    (h2 : indexOfSubFrom fenceClose (X ++ fence1open ++ c ++ fenceClose ++ Y)
        (X.length + 16) = some (X.length + 16 + c.length)) :
    extractReleaseNote (X ++ fence1open ++ c ++ fenceClose ++ Y) =
      trimSpace c := by
  have hlen16 : fence1open.length = 16 := by decide
  have hs : slice (X ++ fence1open ++ c ++ fenceClose ++ Y)
      (X.length + 16) (X.length + 16 + c.length) = c := by
    unfold slice
    have hd : List.drop (X.length + 16)
        (X ++ fence1open ++ c ++ fenceClose ++ Y) = c ++ (fenceClose ++ Y) := by
      have e1 : X ++ fence1open ++ c ++ fenceClose ++ Y =
          (X ++ fence1open) ++ (c ++ (fenceClose ++ Y)) := by
        simp [List.append_assoc]
      rw [e1, show X.length + 16 = (X ++ fence1open).length from by
        simp [List.length_append, hlen16]]
      exact List.drop_left _ _
    rw [Nat.add_sub_cancel_left, hd]
    exact List.take_left _ _
  have hf : format1 (X ++ fence1open ++ c ++ fenceClose ++ Y) =
      some (slice (X ++ fence1open ++ c ++ fenceClose ++ Y)
        (X.length + 16) (X.length + 16 + c.length)) := by
    simp only [format1, h1, h2]
  have hb : X ++ fence1open ++ c ++ fenceClose ++ Y ≠ [] := by
    intro h
    have := congrArg List.length h
    simp [List.length_append, hlen16] at this
  unfold extractReleaseNote
  rw [if_neg hb, hf, hs]

/-- Witness for C2: the spec's end-to-end example body. -/
theorem extract_rule1_exact_witness :
    extractReleaseNote (String.toList
      "```release-note\nFixed login crash\n```\n\nSome other text") =
      trimSpace (String.toList "Fixed login crash") := by
  have h := extract_rule1_exact [] (String.toList "Fixed login crash")
    (String.toList "\n\nSome other text") (by decide) (by decide)
  have e : [] ++ fence1open ++ String.toList "Fixed login crash" ++
      fenceClose ++ String.toList "\n\nSome other text" =
      String.toList "```release-note\nFixed login crash\n```\n\nSome other text" := by
    decide
  rw [e] at h
  exact h

/-- C6: `extractReleaseNote` is a total function; the empty body yields
the not-found sentinel, and a body matching none of the five rules yields
a not-found sentinel (the code uses one sentinel string for the empty
body and another when no pattern matched; both are the spec's NotFound
outcome, never a fault). -/
theorem extract_total_notfound :
    extractReleaseNote [] = noteNotFound ∧
    ∀ body, format1 body = none → format2 body = none → format3 body = none →
      format4 body = none → format5 body = none →
      extractReleaseNote body = noteNotFound ∨
        extractReleaseNote body = noteNotFoundFormat := by
  refine ⟨by decide, fun body h1 h2 h3 h4 h5 => ?_⟩
  by_cases hb : body = []
  · exact Or.inl (by simp [extractReleaseNote, hb])
  · right
    unfold extractReleaseNote
    rw [if_neg hb, h1, h2, h3, h4, h5]

/-- Witness for C6: a body with none of the five patterns. -/
theorem extract_total_notfound_witness :
    extractReleaseNote (String.toList "Hello world.") = noteNotFound ∨
      extractReleaseNote (String.toList "Hello world.") = noteNotFoundFormat :=
  extract_total_notfound.2 (String.toList "Hello world.") (by decide)
    (by decide) (by decide) (by decide) (by decide)

/-- Counterexample to C4 as stated: a fenced release-note block whose
content is empty makes extraction succeed (the result is neither
sentinel) with the empty string, so a Found result can be empty. -/
theorem extract_found_can_be_empty :
    extractReleaseNote (String.toList "```release-note\n\n```") = [] ∧
    ([] : List Char) ≠ noteNotFound ∧
    ([] : List Char) ≠ noteNotFoundFormat :=
  ⟨by decide, by decide, by decide⟩

/-- C4 (amended): whenever `extractReleaseNote` produces a Found result
(an outcome other than the two not-found sentinels), the returned text is
whitespace-trimmed — trimming it again changes nothing.  (It is not
guaranteed non-empty; see the counterexample.) -/
theorem extract_found_trimmed (body : List Char)
    (h1 : extractReleaseNote body ≠ noteNotFound)
    (h2 : extractReleaseNote body ≠ noteNotFoundFormat) :
    trimSpace (extractReleaseNote body) = extractReleaseNote body := by
  rcases extract_shape body with h | h | ⟨c, h⟩
  · exact absurd h h1
  · exact absurd h h2
  · rw [h, trimSpace_trimSpace]

/-- Witness for C4 (amended): a Found result is already trimmed. -/
theorem extract_found_trimmed_witness :
    trimSpace (extractReleaseNote
      (String.toList "```release-note\n  Fixed crash  \n```")) =
      extractReleaseNote
        (String.toList "```release-note\n  Fixed crash  \n```") :=
  extract_found_trimmed _ (by decide) (by decide)

/-
Supporting lemmas for the unifier: a per-title characterisation of the
association list built by the fold.
-/

/-- Titles of the accumulator's entries are pairwise distinct (the key
uniqueness of the Go map keyed by title). -/
def keysNodup (acc : List UnifiedMilestone) : Prop :=
  List.Pairwise (fun u v => u.title ≠ v.title) acc

/-- How the `t`-titled entry of the accumulator grows when `t`-titled
milestones `lf` are folded in: an absent entry stays absent if `lf` is
empty and is created from the first milestone otherwise; a present entry
appends `lf` to its member list, keeping its description. -/
def extendT (t : List Char) :
    List UnifiedMilestone → List Milestone → List UnifiedMilestone
  | [], [] => []
  | [], m :: ms => [⟨t, m.description, m :: ms⟩]
  | u :: _, lf => [⟨u.title, u.description, u.milestones ++ lf⟩]

/-- Every entry of `addToUnified acc m` takes its title from `acc` or
from `m`. -/
lemma title_mem_addToUnified (m : Milestone) :
    ∀ acc v, v ∈ addToUnified acc m →
      v.title = m.title ∨ ∃ w ∈ acc, v.title = w.title := by
  intro acc
  induction acc with
  | nil =>
    intro v hv
    simp [addToUnified] at hv
    exact Or.inl (by rw [hv])
  | cons u rest ih =>
    intro v hv
    by_cases hb : (u.title == m.title) = true
    · simp [addToUnified, hb] at hv
      rcases hv with hv | hv
      · exact Or.inr ⟨u, by simp, by rw [hv]⟩
      · exact Or.inr ⟨v, by simp [hv], rfl⟩
    · simp [addToUnified, hb] at hv
      rcases hv with hv | hv
      · exact Or.inr ⟨u, by simp, by rw [hv]⟩
      · rcases ih v hv with h | ⟨w, hw, hvw⟩
        · exact Or.inl h
        · exact Or.inr ⟨w, by simp [hw], hvw⟩

/-- The loop body preserves key uniqueness. -/
lemma keysNodup_addToUnified (m : Milestone) :
    ∀ acc, keysNodup acc → keysNodup (addToUnified acc m) := by
  intro acc
  induction acc with
  | nil =>
    intro _
    simp [addToUnified, keysNodup]
  | cons u rest ih =>
    intro h
    unfold keysNodup at h
    rw [List.pairwise_cons] at h
    obtain ⟨hu, hrest⟩ := h
    by_cases hb : (u.title == m.title) = true
    · have he : addToUnified (u :: rest) m =
          ⟨u.title, u.description, u.milestones ++ [m]⟩ :: rest := by
        simp [addToUnified, hb]
      rw [keysNodup, he, List.pairwise_cons]
      exact ⟨fun v hv => hu v hv, hrest⟩
    · have he : addToUnified (u :: rest) m = u :: addToUnified rest m := by
        simp [addToUnified, hb]
      rw [keysNodup, he, List.pairwise_cons]
      refine ⟨fun v hv => ?_, ih hrest⟩
      rcases title_mem_addToUnified m rest v hv with hv2 | ⟨w, hw, hvw⟩
      · rw [hv2]
        intro hh
        exact hb (by simp [beq_iff_eq, hh])
      · rw [hvw]
        exact hu w hw

/-- Filtering a cons by a boolean predicate, split on the head. -/
lemma filter_cons_pos {α : Type} (p : α → Bool) (u : α)
    (rest : List α) (h : p u = true) :
    List.filter p (u :: rest) = u :: List.filter p rest := by
  simp [List.filter_cons, h]

lemma filter_cons_neg {α : Type} (p : α → Bool) (u : α)
    (rest : List α) (h : p u = false) :
    List.filter p (u :: rest) = List.filter p rest := by
  simp [List.filter_cons, h]

/-- A title absent from all of `acc` filters to the empty list. -/
lemma filterT_nil (t : List Char) (acc : List UnifiedMilestone)
    (h : ∀ v ∈ acc, v.title ≠ t) :
    List.filter (fun u => u.title == t) acc = [] := by
  induction acc with
  | nil => rfl
  | cons u rest ih =>
    have h1 : (u.title == t) = false := by
      simp only [beq_eq_false_iff_ne, ne_eq]
      exact h u (by simp)
    rw [filter_cons_neg _ u rest h1]
    exact ih fun v hv => h v (by simp [hv])

/-- With unique keys, the per-title filter keeps at most one entry. -/
lemma filterT_shape (t : List Char) (acc : List UnifiedMilestone)
    (h : keysNodup acc) :
    List.filter (fun u => u.title == t) acc = [] ∨
      ∃ u, List.filter (fun u => u.title == t) acc = [u] := by
  induction acc with
  | nil => exact Or.inl rfl
  | cons u rest ih =>
    unfold keysNodup at h
    rw [List.pairwise_cons] at h
    obtain ⟨hu, hrest⟩ := h
    by_cases hb : (u.title == t) = true
    · have ht : u.title = t := by simpa [beq_iff_eq] using hb
      right
      refine ⟨u, ?_⟩
      rw [filter_cons_pos _ u rest hb]
      rw [filterT_nil t rest fun v hv hh => hu v hv (by rw [ht, hh])]
    · have hb2 : (u.title == t) = false := eq_false_of_ne_true hb
      rw [filter_cons_neg _ u rest hb2]
      exact ih hrest

/-- The loop body leaves the filter of every other title unchanged. -/
lemma filterT_addToUnified_ne (t : List Char) (m : Milestone)
    (hm : (m.title == t) = false) :
    ∀ acc, List.filter (fun u => u.title == t) (addToUnified acc m) =
      List.filter (fun u => u.title == t) acc := by
  intro acc
  induction acc with
  | nil => simp [addToUnified, List.filter, hm]
  | cons u rest ih =>
    by_cases hb : (u.title == m.title) = true
    · have he : addToUnified (u :: rest) m =
          ⟨u.title, u.description, u.milestones ++ [m]⟩ :: rest := by
        simp [addToUnified, hb]
      have ht : u.title = m.title := by simpa [beq_iff_eq] using hb
      have hu : (u.title == t) = false := by rw [ht]; exact hm
      have hu2 : ((⟨u.title, u.description, u.milestones ++ [m]⟩ :
          UnifiedMilestone).title == t) = false := hu
      rw [he, filter_cons_neg _ ⟨u.title, u.description, u.milestones ++ [m]⟩ rest hu2,
        filter_cons_neg _ u rest hu]
    · have he : addToUnified (u :: rest) m = u :: addToUnified rest m := by
        simp [addToUnified, hb]
      rw [he]
      by_cases hu : (u.title == t) = true
      · rw [filter_cons_pos _ u (addToUnified rest m) hu, filter_cons_pos _ u rest hu, ih]
      · rw [filter_cons_neg _ u (addToUnified rest m) (eq_false_of_ne_true hu),
          filter_cons_neg _ u rest (eq_false_of_ne_true hu), ih]

/-- The loop body extends the filter of the added milestone's title. -/
lemma filterT_addToUnified_eq (t : List Char) (m : Milestone)
    (hm : (m.title == t) = true) :
    ∀ acc, keysNodup acc →
      List.filter (fun u => u.title == t) (addToUnified acc m) =
        extendT t (List.filter (fun u => u.title == t) acc) [m] := by
  intro acc
  induction acc with
  | nil =>
    intro _
    have ht : m.title = t := by simpa [beq_iff_eq] using hm
    simp [addToUnified, List.filter, hm, extendT, ht]
  | cons u rest ih =>
    intro h
    unfold keysNodup at h
    rw [List.pairwise_cons] at h
    obtain ⟨hu, hrest⟩ := h
    by_cases hb : (u.title == m.title) = true
    · have he : addToUnified (u :: rest) m =
          ⟨u.title, u.description, u.milestones ++ [m]⟩ :: rest := by
        simp [addToUnified, hb]
      have htu : u.title = m.title := by simpa [beq_iff_eq] using hb
      have hut : (u.title == t) = true := by rw [htu]; exact hm
      have hrest0 : List.filter (fun v => v.title == t) rest = [] :=
        filterT_nil t rest fun v hv hh => by
          exact hu v hv (by
            rw [htu]
            have hmt : m.title = t := by simpa [beq_iff_eq] using hm
            rw [hmt, hh])
      have hut2 : ((⟨u.title, u.description, u.milestones ++ [m]⟩ :
          UnifiedMilestone).title == t) = true := hut
      rw [he, filter_cons_pos _ ⟨u.title, u.description, u.milestones ++ [m]⟩ rest hut2,
        filter_cons_pos _ u rest hut, hrest0]
      rfl
    · have he : addToUnified (u :: rest) m = u :: addToUnified rest m := by
        simp [addToUnified, hb]
      have hut : (u.title == t) = false := by
        have h1 : u.title ≠ m.title := fun hh => hb (by simp [beq_iff_eq, hh])
        have h2 : m.title = t := by simpa [beq_iff_eq] using hm
        simp only [beq_eq_false_iff_ne, ne_eq]
        rw [← h2]
        exact h1
      rw [he, filter_cons_neg _ u (addToUnified rest m) hut, filter_cons_neg _ u rest hut]
      exact ih hrest

/-- Master characterisation of the fold: for each title `t`, folding the
milestones `l` into `acc` turns the `t`-entry of `acc` into its extension
by the `t`-titled milestones of `l`, in traversal order. -/
lemma filterT_foldl (t : List Char) :
    ∀ (l : List Milestone) (acc : List UnifiedMilestone), keysNodup acc →
      List.filter (fun u => u.title == t) (List.foldl addToUnified acc l) =
        extendT t (List.filter (fun u => u.title == t) acc)
          (List.filter (fun m => m.title == t) l) := by
  intro l
  induction l with
  | nil =>
    intro acc h
    rw [List.foldl_nil, List.filter_nil]
    rcases filterT_shape t acc h with h0 | ⟨u, h0⟩ <;> rw [h0] <;>
      simp [extendT]
  | cons m l' ih =>
    intro acc h
    have hstep := ih (addToUnified acc m) (keysNodup_addToUnified m acc h)
    rw [List.foldl_cons, hstep]
    by_cases hm : (m.title == t) = true
    · rw [filterT_addToUnified_eq t m hm acc h, filter_cons_pos _ m l' hm]
      rcases filterT_shape t acc h with h0 | ⟨u, h0⟩ <;> rw [h0]
      · rfl
      · simp [extendT, List.append_assoc]
    · have hm2 : (m.title == t) = false := eq_false_of_ne_true hm
      rw [filterT_addToUnified_ne t m hm2 acc, filter_cons_neg _ m l' hm2]

/-- The unifier is the fold of the loop body over the flattened input. -/
lemma unify_eq_foldl_flatten (sets : List (List Milestone)) :
    unifyMilestonesByName sets = List.foldl addToUnified [] sets.flatten := by
  unfold unifyMilestonesByName
  suffices hg : ∀ (ss : List (List Milestone)) (init : List UnifiedMilestone),
      List.foldl (fun acc ms => List.foldl addToUnified acc ms) init ss =
        List.foldl addToUnified init ss.flatten by
    exact hg sets []
  intro ss
  induction ss with
  | nil => intro init; rfl
  | cons s ss2 ih =>
    intro init
    rw [List.foldl_cons, List.flatten_cons, List.foldl_append]
    exact ih _

/-- The entry the unifier builds for a title `t` occurring in the input:
its member list collects exactly the `t`-titled input milestones, in the
traversal order of the fold, and its description is the first one's. -/
lemma unify_filter_entry (sets : List (List Milestone)) (t : List Char)
    (m : Milestone) (ms : List Milestone)
    (h : List.filter (fun mm => mm.title == t) sets.flatten = m :: ms) :
    List.filter (fun u => u.title == t) (unifyMilestonesByName sets) =
      [⟨t, m.description, m :: ms⟩] := by
  rw [unify_eq_foldl_flatten,
    filterT_foldl t sets.flatten [] (by simp [keysNodup]), h]
  rfl

/-- Generic preservation of an entry property by the loop body: the
property must survive creating a one-member entry and appending a
same-titled milestone to an entry. -/
lemma addToUnified_preserves (P : UnifiedMilestone → Prop)
    (hnew : ∀ m : Milestone, P ⟨m.title, m.description, [m]⟩)
    (hstep : ∀ (m : Milestone) (u : UnifiedMilestone), u.title = m.title →
      P u → P ⟨u.title, u.description, u.milestones ++ [m]⟩) :
    ∀ (m : Milestone) (acc : List UnifiedMilestone),
      (∀ u ∈ acc, P u) → ∀ u ∈ addToUnified acc m, P u := by
  intro m acc
  induction acc with
  | nil =>
    intro _ u hu
    simp [addToUnified] at hu
    rw [hu]
    exact hnew m
  | cons v rest ih =>
    intro h u hu
    by_cases hb : (v.title == m.title) = true
    · simp [addToUnified, hb] at hu
      rcases hu with hu | hu
      · rw [hu]
        exact hstep m v (by simpa [beq_iff_eq] using hb) (h v (by simp))
      · exact h u (by simp [hu])
    · simp [addToUnified, hb] at hu
      rcases hu with hu | hu
      · exact h u (by simp [hu])
      · exact ih (fun w hw => h w (by simp [hw])) u hu

/-- Generic preservation of an entry property by the whole fold. -/
lemma foldl_preserves (P : UnifiedMilestone → Prop)
    (hnew : ∀ m : Milestone, P ⟨m.title, m.description, [m]⟩)
    (hstep : ∀ (m : Milestone) (u : UnifiedMilestone), u.title = m.title →
      P u → P ⟨u.title, u.description, u.milestones ++ [m]⟩) :
    ∀ (l : List Milestone) (acc : List UnifiedMilestone),
      (∀ u ∈ acc, P u) → ∀ u ∈ List.foldl addToUnified acc l, P u := by
  intro l
  induction l with
  | nil => intro acc h; exact h
  | cons m l' ih =>
    intro acc h
    rw [List.foldl_cons]
    exact ih (addToUnified acc m)
      (addToUnified_preserves P hnew hstep m acc h)

/-- C3: the unifier groups milestones by title.  First, the invariant:
every member of a returned `UnifiedMilestone` has that entry's title.
Second, a title occurring exactly once in each of two input sets yields
exactly one entry with that title, whose member list holds exactly those
two milestones (the records themselves, origins intact), the first set's
first. -/
theorem unify_groups_by_title :
    (∀ (sets : List (List Milestone)) (u : UnifiedMilestone),
      u ∈ unifyMilestonesByName sets →
      ∀ m ∈ u.milestones, m.title = u.title) ∧
    (∀ (setA setB : List Milestone) (t : List Char) (mA mB : Milestone),
      List.filter (fun m => m.title == t) setA = [mA] →
      List.filter (fun m => m.title == t) setB = [mB] →
      List.filter (fun u => u.title == t) (unifyMilestonesByName [setA, setB]) =
        [⟨t, mA.description, [mA, mB]⟩]) := by
  constructor
  · intro sets u hu m hm
    have h := foldl_preserves
      (fun u => ∀ m ∈ u.milestones, m.title = u.title)
      (by intro m' w hw; simp at hw; rw [hw])
      (by
        intro m' v ht hv w hw
        simp at hw
        rcases hw with hw | hw
        · exact hv w hw
        · rw [hw, ht])
      sets.flatten [] (by simp)
    rw [unify_eq_foldl_flatten] at hu
    exact h u hu m hm
  · intro setA setB t mA mB hA hB
    have hflat : List.filter (fun m => m.title == t)
        (([setA, setB] : List (List Milestone)).flatten) = mA :: [mB] := by
      have : (([setA, setB] : List (List Milestone)).flatten) =
          setA ++ (setB ++ []) := rfl
      rw [this, List.filter_append, List.filter_append, hA, hB]
      rfl
    exact unify_filter_entry [setA, setB] t mA [mB] hflat

/-- Witness for C3: the spec's example, title v1 in repositories A and B. -/
theorem unify_groups_by_title_witness :
    List.filter (fun u => u.title == String.toList "v1")
      (unifyMilestonesByName
        [[⟨10, String.toList "v1", String.toList "dA", String.toList "A"⟩],
         [⟨77, String.toList "v1", String.toList "dB", String.toList "B"⟩]]) =
      [⟨String.toList "v1", String.toList "dA",
        [⟨10, String.toList "v1", String.toList "dA", String.toList "A"⟩,
         ⟨77, String.toList "v1", String.toList "dB", String.toList "B"⟩]⟩] :=
  unify_groups_by_title.2
    [⟨10, String.toList "v1", String.toList "dA", String.toList "A"⟩]
    [⟨77, String.toList "v1", String.toList "dB", String.toList "B"⟩]
    (String.toList "v1")
    ⟨10, String.toList "v1", String.toList "dA", String.toList "A"⟩
    ⟨77, String.toList "v1", String.toList "dB", String.toList "B"⟩
    (by decide) (by decide)

/-- C7: the unifier processes milestones in the order the sets were
supplied and within each set in order (the fold over the flattened
input); for each title the entry's member list is exactly the t-titled
milestones in that traversal order, and the description is the first
one's — later occurrences append but never update the description. -/
theorem unify_first_seen_description (sets : List (List Milestone))
    (t : List Char) (m : Milestone) (ms : List Milestone)
    (h : List.filter (fun mm => mm.title == t) sets.flatten = m :: ms) :
    List.filter (fun u => u.title == t) (unifyMilestonesByName sets) =
      [⟨t, m.description, m :: ms⟩] :=
  unify_filter_entry sets t m ms h

/-- Witness for C7: a repeated title keeps the first description and
collects both milestones in traversal order. -/
theorem unify_first_seen_description_witness :
    List.filter (fun u => u.title == String.toList "v1")
      (unifyMilestonesByName
        [[⟨1, String.toList "v1", String.toList "first", String.toList "A"⟩,
          ⟨2, String.toList "v2", String.toList "other", String.toList "A"⟩],
         [⟨3, String.toList "v1", String.toList "second", String.toList "B"⟩]]) =
      [⟨String.toList "v1", String.toList "first",
        [⟨1, String.toList "v1", String.toList "first", String.toList "A"⟩,
         ⟨3, String.toList "v1", String.toList "second", String.toList "B"⟩]⟩] :=
  unify_first_seen_description
    [[⟨1, String.toList "v1", String.toList "first", String.toList "A"⟩,
      ⟨2, String.toList "v2", String.toList "other", String.toList "A"⟩],
     [⟨3, String.toList "v1", String.toList "second", String.toList "B"⟩]]
    (String.toList "v1")
    ⟨1, String.toList "v1", String.toList "first", String.toList "A"⟩
    [⟨3, String.toList "v1", String.toList "second", String.toList "B"⟩]
    (by decide)

/-- All milestones referenced by a list of unified entries. -/
def allMembers (us : List UnifiedMilestone) : List Milestone :=
  (List.map (fun u => u.milestones) us).flatten

/-- The loop body adds exactly the new milestone to the members. -/
lemma allMembers_addToUnified (m : Milestone) :
    ∀ acc, List.Perm (allMembers (addToUnified acc m)) (m :: allMembers acc) := by
  intro acc
  induction acc with
  | nil => simp [allMembers, addToUnified]
  | cons u rest ih =>
    by_cases hb : (u.title == m.title) = true
    · have he : addToUnified (u :: rest) m =
          ⟨u.title, u.description, u.milestones ++ [m]⟩ :: rest := by
        simp [addToUnified, hb]
      rw [he]
      show List.Perm ((u.milestones ++ [m]) ++ allMembers rest)
        (m :: (u.milestones ++ allMembers rest))
      rw [List.append_assoc]
      exact List.perm_middle
    · have he : addToUnified (u :: rest) m = u :: addToUnified rest m := by
        simp [addToUnified, hb]
      rw [he]
      show List.Perm (u.milestones ++ allMembers (addToUnified rest m))
        (m :: (u.milestones ++ allMembers rest))
      exact ((ih.append_left u.milestones).trans List.perm_middle)

/-- The fold adds exactly the folded milestones to the members. -/
lemma allMembers_foldl :
    ∀ (l : List Milestone) (acc : List UnifiedMilestone),
      List.Perm (allMembers (List.foldl addToUnified acc l))
        (allMembers acc ++ l) := by
  intro l
  induction l with
  | nil => intro acc; simp
  | cons m l' ih =>
    intro acc
    rw [List.foldl_cons]
    have h1 := ih (addToUnified acc m)
    have h2 := (allMembers_addToUnified m acc).append_right l'
    have h3 : List.Perm (allMembers acc ++ m :: l')
        (m :: (allMembers acc ++ l')) := List.perm_middle
    exact (h1.trans h2).trans h3.symm

/-- C9: the unifier conserves its input — the concatenation of all member
lists of the returned entries is a permutation of the concatenation of
the input sets: no milestone is dropped or duplicated, and each member is
an input record itself (origin field and all, unchanged). -/
theorem unify_conserves_milestones (sets : List (List Milestone)) :
    List.Perm (allMembers (unifyMilestonesByName sets)) sets.flatten := by
  rw [unify_eq_foldl_flatten]
  have h := allMembers_foldl sets.flatten []
  simpa [allMembers] using h

/-- C10: every returned entry has a non-empty member list (entries are
created with one member and only ever extended), so the orchestration's
unchecked access `um.Milestones[0]` (main.go:227) is in bounds. -/
theorem unify_members_nonempty (sets : List (List Milestone))
    (u : UnifiedMilestone) (hu : u ∈ unifyMilestonesByName sets) :
    u.milestones ≠ [] := by
  rw [unify_eq_foldl_flatten] at hu
  exact foldl_preserves (fun u => u.milestones ≠ [])
    (by intro m; simp)
    (by intro m v _ _; simp)
    sets.flatten [] (by simp) u hu

/-- Witness for C10. -/
theorem unify_members_nonempty_witness :
    (⟨String.toList "v1", String.toList "d",
      [⟨1, String.toList "v1", String.toList "d", String.toList "A"⟩]⟩ :
      UnifiedMilestone).milestones ≠ [] :=
  unify_members_nonempty
    [[⟨1, String.toList "v1", String.toList "d", String.toList "A"⟩]] _
    (by decide)

/-
Supporting lemmas for the post-fetch filter of `getPRsWithReleaseNotes`.
-/

/-- Any list is a prefix of itself followed by anything. -/
lemma isPre_self_append (l : List Char) : ∀ t, isPre l (l ++ t) = true := by
  induction l with
  | nil => intro t; rfl
  | cons a as ih => intro t; simp [isPre, ih]

/-- A string starting with `pat` contains `pat`. -/
lemma hasSub_self_start (pat w : List Char) : hasSub (pat ++ w) pat = true := by
  cases pat with
  | nil =>
    cases w with
    | nil => rfl
    | cons b t => simp [hasSub, indexOfSub, isPre]
  | cons a as =>
    show (indexOfSub (a :: as) (a :: (as ++ w))).isSome = true
    rw [indexOfSub]
    rw [show isPre (a :: as) (a :: (as ++ w)) = true from isPre_self_append _ _]
    rfl

/-- Containment is preserved by prepending a character. -/
lemma hasSub_cons (c : Char) (l pat : List Char) (h : hasSub l pat = true) :
    hasSub (c :: l) pat = true := by
  show (indexOfSub pat (c :: l)).isSome = true
  rw [indexOfSub]
  by_cases hp : isPre pat (c :: l) = true
  · rw [hp]; rfl
  · rw [eq_false_of_ne_true hp]
    simp only [Bool.false_eq_true, if_false]
    obtain ⟨n, hn⟩ := Option.isSome_iff_exists.mp h
    rw [hn]
    rfl

/-- Containment is preserved by prepending any list. -/
lemma hasSub_append_left (a l pat : List Char) (h : hasSub l pat = true) :
    hasSub (a ++ l) pat = true := by
  induction a with
  | nil => simpa using h
  | cons x as ih => exact hasSub_cons x (as ++ l) pat ih

/-- The is-a-pull-request test of the filter is vacuous: the string the
code builds always contains "pull", because the code itself inserts the
"/pull/" segment. -/
lemma hasSub_pull (u z : List Char) :
    hasSub (u ++ String.toList "/pull/" ++ z) (String.toList "pull") = true := by
  rw [List.append_assoc]
  apply hasSub_append_left
  have he : String.toList "/pull/" ++ z =
      '/' :: (String.toList "pull" ++ ('/' :: z)) := rfl
  rw [he]
  exact hasSub_cons _ _ _ (hasSub_self_start (String.toList "pull") ('/' :: z))

/-- C8 is wrong about the code (code bug): the filter's attempted
is-a-pull-request check `strings.Contains(repoURL + "/pull/" + number,
"pull")` tests a string the code itself just built, which always contains
"pull"; so the filter keeps exactly the entries carrying a milestone
reference and plain non-PR issues are NOT excluded, contradicting the
code's own comment "Verify if it's a PR (not an issue)" (main.go:412). -/
theorem prFilter_keeps_any_with_milestone (repoURL : List Char)
    (prs : List PullRequest) :
    prFilter repoURL prs = List.filter (fun pr => pr.milestone.isSome) prs := by
  unfold prFilter
  induction prs with
  | nil => rfl
  | cons pr rest ih =>
    simp only [List.filter_cons]
    rw [hasSub_pull repoURL (String.toList (toString pr.number)), Bool.true_and,
      ih]

/-
Supporting lemmas for rule 3's positive case.
-/

/-- The forward search finds `j` when `f` holds at `j`, fails strictly before it,
and `j` is within the scanned range. -/
lemma findFrom_eq_some (f : Nat → Bool) (j : Nat) :
    ∀ (fuel i : Nat), i ≤ j → j < i + fuel → f j = true →
      (∀ k, i ≤ k → k < j → f k = false) → findFrom f fuel i = some j := by
  intro fuel
  induction fuel with
  | zero => intro i h1 h2 _ _; omega
  | succ n ih =>
    intro i h1 h2 hj hk
    by_cases hij : i = j
    · subst hij
      simp [findFrom, hj]
    · have hlt : i < j := lt_of_le_of_ne h1 hij
      have hfi : f i = false := hk i le_rfl hlt
      simp only [findFrom, hfi, Bool.false_eq_true, if_false]
      exact ih (i + 1) hlt (by omega) hj fun k hk1 hk2 => hk k (by omega) hk2


/-- A scan that fails strictly before `j` and succeeds at `j` returns the
match at `j` (the leftmost match of the position loop). -/
lemma scanPos_skip (f : Nat → Option (List Char)) (j : Nat) (c : List Char) :
    ∀ (fuel i : Nat), i ≤ j → j < i + fuel →
      (∀ m, i ≤ m → m < j → f m = none) → f j = some c →
      scanPos f fuel i = some c := by
  intro fuel
  induction fuel with
  | zero => intro i h1 h2 _ _; omega
  | succ n ih =>
    intro i h1 h2 hm hj
    by_cases hij : i = j
    · subst hij
      simp [scanPos, hj]
    · have hlt : i < j := lt_of_le_of_ne h1 hij
      have hfi : f i = none := hm i le_rfl hlt
      simp only [scanPos, hfi]
      exact ih (i + 1) hlt (by omega) (fun m hm1 hm2 => hm m (by omega) hm2) hj

/-- The head of the descending newline-offset list is an offset into the
run. -/
lemma descNlOffsets_head_lt (run : List Char) (k : Nat) (ks : List Nat)
    (h : descNlOffsets run = k :: ks) : k < run.length := by
  have hk : k ∈ descNlOffsets run := by
    rw [h]
    exact List.mem_cons_self _ _
  unfold descNlOffsets at hk
  rw [List.mem_reverse] at hk
  exact List.mem_range.mp (List.mem_filter.mp hk).1

/-- A whitespace run stops inside `A` when `A` has a non-run character,
so appending anything after `A` leaves the run unchanged. -/
lemma takeWhile_append_stop (p : Char → Bool) :
    ∀ (A B : List Char), (∃ a ∈ A, p a = false) →
      List.takeWhile p (A ++ B) = List.takeWhile p A := by
  intro A
  induction A with
  | nil => intro B h; simp at h
  | cons a t ih =>
    intro B h
    by_cases hpa : p a = true
    · have hwit : ∃ x ∈ t, p x = false := by
        rcases h with ⟨x, hx, hpx⟩
        rcases List.mem_cons.mp hx with h1 | h1
        · rw [h1] at hpx
          rw [hpa] at hpx
          exact absurd hpx (by simp)
        · exact ⟨x, h1, hpx⟩
      rw [List.cons_append, List.takeWhile_cons, List.takeWhile_cons,
        if_pos hpa, if_pos hpa, ih B hwit]
    · rw [List.cons_append, List.takeWhile_cons, List.takeWhile_cons,
        if_neg hpa, if_neg hpa]

/-- A list holding a non-whitespace character has a shorter whitespace
run than its length. -/
lemma length_takeWhile_lt (p : Char → Bool) :
    ∀ A : List Char, (∃ a ∈ A, p a = false) →
      (List.takeWhile p A).length < A.length := by
  intro A
  induction A with
  | nil => intro h; simp at h
  | cons a t ih =>
    intro h
    by_cases hpa : p a = true
    · have hwit : ∃ x ∈ t, p x = false := by
        rcases h with ⟨x, hx, hpx⟩
        rcases List.mem_cons.mp hx with h1 | h1
        · rw [h1] at hpx
          rw [hpa] at hpx
          exact absurd hpx (by simp)
        · exact ⟨x, h1, hpx⟩
      rw [List.takeWhile_cons, if_pos hpa]
      simp only [List.length_cons]
      exact Nat.succ_lt_succ (ih hwit)
    · rw [List.takeWhile_cons, if_neg hpa]
      simp

/-- Characters taken from within the whitespace run satisfy the run
predicate. -/
lemma mem_take_of_le_takeWhile (p : Char → Bool) :
    ∀ (l : List Char) (k : Nat), k ≤ (List.takeWhile p l).length →
      ∀ c ∈ List.take k l, p c = true := by
  intro l
  induction l with
  | nil => intro k _ c hc; simp at hc
  | cons a t ih =>
    intro k hk c hc
    cases k with
    | zero => simp at hc
    | succ k2 =>
      by_cases hpa : p a = true
      · rw [List.takeWhile_cons, if_pos hpa, List.length_cons] at hk
        rw [List.take_succ_cons] at hc
        rcases List.mem_cons.mp hc with h1 | h1
        · rw [h1]
          exact hpa
        · exact ih k2 (by omega) c h1
      · rw [List.takeWhile_cons, if_neg hpa] at hk
        simp at hk

/-- RE2 whitespace is contained in the class of Go's `unicode.IsSpace`. -/
lemma reWs_goIsSpace (c : Char) (h : reWs c = true) : goIsSpace c = true := by
  simp only [reWs, Bool.or_eq_true, beq_iff_eq] at h
  rcases h with (((h | h) | h) | h) | h <;> subst h <;> decide

/-- Dropping from the left skips a fully-whitespace prefix. -/
lemma dropWhile_append_all (p : Char → Bool) :
    ∀ (A X : List Char), (∀ a ∈ A, p a = true) →
      List.dropWhile p (A ++ X) = List.dropWhile p X := by
  intro A
  induction A with
  | nil => intro X _; rfl
  | cons a t ih =>
    intro X h
    rw [List.cons_append, List.dropWhile_cons, if_pos (h a (by simp))]
    exact ih X fun x hx => h x (by simp [hx])

/-- Trimming ignores a whitespace-only prefix. -/
lemma trimSpace_ws_lead (A X : List Char)
    (h : ∀ a ∈ A, goIsSpace a = true) :
    trimSpace (A ++ X) = trimSpace X := by
  unfold trimSpace
  rw [dropWhile_append_all goIsSpace A X h]

/-- Assembly of rule 3's match attempt once the heading shape at `i` is
established. -/
lemma matchAt3_pos (body : List Char) (i m : Nat)
    (hA : isPre hhhLit (List.drop i body) = true)
    (hB : wsRun (List.drop (i + 3) body) = m)
    (hC : isPre hdrLit (List.drop (i + 3 + m) body) = true) :
    matchAt3 body i = tryNlCands body (term3 body) (i + 3 + m + 12)
      (descNlOffsets (List.takeWhile reWs
        (List.drop (i + 3 + m + 12) body))) := by
  simp [matchAt3, hA, hB, hC]


/-- Counterexample to C5 as stated: a body consisting of the level-3
heading "### Release Note" and section text, but not ending with a
newline, is NOT matched by rule 3 (its terminator group needs a following
heading or a document-final newline), and no other rule matches either:
extraction returns the no-match sentinel instead of the section text. -/
theorem heading_no_final_newline_counterexample :
    extractReleaseNote (String.toList "### Release Note\nFixed stuff") =
      noteNotFoundFormat ∧
    noteNotFoundFormat ≠ String.toList "Fixed stuff" :=
  ⟨by decide, by decide⟩

/-- C5 (amended): consider a body whose leftmost rule-3 match is the
level-3 heading "### Release Note" right after an arbitrary prefix `P`.
As in the rule-1 theorem, the hypotheses pin the leftmost-first match
rather than excluding bodies: the earlier fenced-block rules do not
match, no position inside `P` matches rule 3, and `hdesc` pins the
backtracking candidate of the greedy whitespace run trailing the heading
line.  The section text `C` after the heading line runs to the
terminator `Z` — either the next level-3 heading (a newline followed by
"###") or a document-final newline — with no earlier newline-"###"
inside it and at least one visible (non-whitespace) character (so the
heading's whitespace run stops inside the section).  Then
`extractReleaseNote` returns the section text trimmed.  The only change
the counterexample forces on the original claim: the end-of-document
case needs that final newline — without it (and with no following
heading) rule 3 does not match. -/
theorem extract_heading_section (P C Z body : List Char) (k : Nat)
    (ks : List Nat)
    (hbody : body = P ++ (String.toList "### Release Note\n" ++ (C ++ Z)))
    (hZ : Z = [Char.ofNat 10] ∨ ∃ Z2, Z = nlhhhLit ++ Z2)
    (hf1 : format1 body = none)
    (hf2 : format2 body = none)
    (hleft : ∀ i, i < P.length → matchAt3 body i = none)
    (hCnw : ∃ c ∈ C, reWs c = false)
    (hdesc : descNlOffsets (List.takeWhile reWs
      (Char.ofNat 10 :: (C ++ Z))) = k :: ks)
    (hno : ∀ j, j < C.length →
      isPre nlhhhLit (List.drop j (C ++ Z)) = false) :
    extractReleaseNote body = trimSpace C := by
  have h17 : (String.toList "### Release Note\n").length = 17 := by decide
  have h4 : nlhhhLit.length = 4 := by decide
  have hPdrop : List.drop P.length body =
      String.toList "### Release Note\n" ++ (C ++ Z) := by
    rw [hbody]
    exact List.drop_left P _
  have hA1 : isPre hhhLit (List.drop P.length body) = true := by
    rw [hPdrop]
    exact isPre_self_append hhhLit
      (String.toList " Release Note\n" ++ (C ++ Z))
  have hdrop3 : List.drop (P.length + 3) body =
      String.toList " Release Note\n" ++ (C ++ Z) := by
    rw [← List.drop_drop, hPdrop]
    rfl
  have hB1 : wsRun (List.drop (P.length + 3) body) = 1 := by
    rw [hdrop3]
    rfl
  have hdrop4 : List.drop (P.length + 3 + 1) body =
      String.toList "Release Note\n" ++ (C ++ Z) := by
    rw [show P.length + 3 + 1 = P.length + 4 from by omega,
      ← List.drop_drop, hPdrop]
    rfl
  have hC1 : isPre hdrLit (List.drop (P.length + 3 + 1) body) = true := by
    rw [hdrop4]
    exact isPre_self_append hdrLit (Char.ofNat 10 :: (C ++ Z))
  have hdrop16 : List.drop (P.length + 16) body =
      Char.ofNat 10 :: (C ++ Z) := by
    rw [← List.drop_drop, hPdrop]
    rfl
  have hlen_lb : P.length + 17 + C.length < body.length := by
    rw [hbody]
    rcases hZ with h | ⟨Z2, h⟩ <;> rw [h] <;>
      simp only [List.length_append, List.length_cons, List.length_nil,
        h17, h4] <;> omega
  have hlenf : ∀ e, e < P.length + 17 + C.length →
      (e + 1 == body.length) = false := by
    intro e he
    apply beq_eq_false_iff_ne.mpr
    rw [hbody]
    rcases hZ with h | ⟨Z2, h⟩ <;> rw [h] <;>
      simp only [List.length_append, List.length_cons, List.length_nil,
        h17, h4] <;> omega
  have hne : body ≠ [] := by
    intro h
    rw [h] at hlen_lb
    simp only [List.length_nil] at hlen_lb
    omega
  have hrun : List.takeWhile reWs (Char.ofNat 10 :: (C ++ Z)) =
      Char.ofNat 10 :: List.takeWhile reWs C := by
    rw [List.takeWhile_cons,
      if_pos (show reWs (Char.ofNat 10) = true from by decide),
      takeWhile_append_stop reWs C Z hCnw]
  have hkrun : k < (List.takeWhile reWs (Char.ofNat 10 :: (C ++ Z))).length :=
    descNlOffsets_head_lt _ _ _ hdesc
  have hkW : k ≤ (List.takeWhile reWs C).length := by
    rw [hrun, List.length_cons] at hkrun
    omega
  have hWC : (List.takeWhile reWs C).length < C.length :=
    length_takeWhile_lt reWs C hCnw
  have hterm_at : term3 body (P.length + 17 + C.length) = true := by
    rcases hZ with hz | ⟨Z2, hz⟩
    · have e1 : (P ++ String.toList "### Release Note\n" ++ C).length =
          P.length + 17 + C.length := by
        simp only [List.length_append, h17]
      have hget : List.get? body (P.length + 17 + C.length) =
          some (Char.ofNat 10) := by
        rw [hbody, hz,
          show P ++ (String.toList "### Release Note\n" ++
            (C ++ [Char.ofNat 10])) =
            (P ++ String.toList "### Release Note\n" ++ C) ++ [Char.ofNat 10]
          from by simp [List.append_assoc], ← e1]
        exact List.get?_concat_length _ _
      have hb2 : ((P.length + 17 + C.length) + 1 == body.length) = true := by
        apply beq_iff_eq.mpr
        rw [hbody, hz]
        simp only [List.length_append, List.length_cons, List.length_nil, h17]
        omega
      unfold term3
      rw [hget, hb2]
      simp
    · have hdropstar : List.drop (P.length + 17 + C.length) body =
          nlhhhLit ++ Z2 := by
        rw [← List.drop_drop, ← List.drop_drop, hPdrop,
          show List.drop 17 (String.toList "### Release Note\n" ++ (C ++ Z)) =
            C ++ Z from rfl,
          List.drop_left, hz]
      unfold term3
      rw [hdropstar, isPre_self_append nlhhhLit Z2]
      simp
  have hterm_not : ∀ e, P.length + 16 + k + 1 ≤ e →
      e < P.length + 17 + C.length → term3 body e = false := by
    intro e he1 he2
    have hPH : (P ++ String.toList "### Release Note\n").length =
        P.length + 17 := by
      simp only [List.length_append, h17]
    have hj : List.drop e body =
        List.drop (e - (P.length + 17)) (C ++ Z) := by
      rw [hbody,
        show P ++ (String.toList "### Release Note\n" ++ (C ++ Z)) =
          (P ++ String.toList "### Release Note\n") ++ (C ++ Z)
        from by rw [List.append_assoc],
        List.drop_append_eq_append_drop,
        List.drop_eq_nil_of_le (by rw [hPH]; omega), List.nil_append, hPH]
    have hpre : isPre nlhhhLit (List.drop e body) = false := by
      rw [hj]
      exact hno (e - (P.length + 17)) (by omega)
    unfold term3
    rw [hpre, hlenf e he2]
    simp
  have hple : P.length + 16 + k + 1 ≤ P.length + 17 + C.length := by omega
  have hfind : findFrom (term3 body) (body.length + 1)
      (P.length + 16 + k + 1) = some (P.length + 17 + C.length) :=
    findFrom_eq_some (term3 body) (P.length + 17 + C.length)
      (body.length + 1) (P.length + 16 + k + 1) hple (by omega) hterm_at
      hterm_not
  have hdropp : List.drop (P.length + 16 + k + 1) body =
      List.drop k C ++ Z := by
    rw [show P.length + 16 + k + 1 = P.length + 16 + (k + 1) from by omega,
      ← List.drop_drop, hdrop16, List.drop_succ_cons,
      List.drop_append_eq_append_drop,
      show k - C.length = 0 from by omega, List.drop_zero]
  have hslice : slice body (P.length + 16 + k + 1)
      (P.length + 17 + C.length) = List.drop k C := by
    unfold slice
    rw [hdropp,
      show P.length + 17 + C.length - (P.length + 16 + k + 1) = C.length - k
        from by omega,
      show C.length - k = (List.drop k C).length from by
        rw [List.length_drop]]
    exact List.take_left _ _
  have hmA : matchAt3 body P.length = some (List.drop k C) := by
    rw [matchAt3_pos body P.length 1 hA1 hB1 hC1,
      show P.length + 3 + 1 + 12 = P.length + 16 from by omega,
      hdrop16, hdesc]
    simp only [tryNlCands]
    rw [hfind]
    exact congrArg some hslice
  have hfmt3 : format3 body = some (List.drop k C) := by
    unfold format3
    exact scanPos_skip (matchAt3 body) P.length (List.drop k C)
      (body.length + 1) 0 (by omega) (by omega)
      (fun m _ hm2 => hleft m hm2) hmA
  have hws_take : ∀ c ∈ List.take k C, goIsSpace c = true := fun c hc =>
    reWs_goIsSpace c (mem_take_of_le_takeWhile reWs C k hkW c hc)
  have htrim : trimSpace (List.drop k C) = trimSpace C := by
    conv_rhs => rw [← List.take_append_drop k C]
    exact (trimSpace_ws_lead (List.take k C) (List.drop k C) hws_take).symm
  unfold extractReleaseNote
  rw [if_neg hne, hf1, hf2, hfmt3]
  exact htrim

/-- Witness for C5 (amended): a body with text before the heading and a
section terminated by the document-final newline. -/
theorem extract_heading_section_witness :
    extractReleaseNote (String.toList "xx\n### Release Note\nFixed\n") =
      trimSpace (String.toList "Fixed") :=
  extract_heading_section (String.toList "xx\n") (String.toList "Fixed")
    [Char.ofNat 10] (String.toList "xx\n### Release Note\nFixed\n") 0 []
    (by decide) (Or.inl rfl) (by decide) (by decide) (by decide) (by decide)
    (by decide) (by decide)

end RelNotes
